import Mathlib

/-!
Verification of the Notty card game core (repository Winipedia/notty).

The definitions below are a shallow embedding of the game-rules engine
(`notty/src/visual/game.py`), the hand/deck containers
(`notty/src/visual/player.py` and the deck/constants modules), the
Q-learning agent (`notty/src/qlearning_agent.py`) and the computer policy
heuristics (`notty/src/computer_action_selection.py`).  Visual fields
(coordinates, surfaces, sprites) are dropped; cards keep exactly the data
the game logic reads: a color and a number.
-/

namespace Notty

open scoped List

/-- Card colors, from the `Color` class in `notty/src/visual/card.py`
(RED, GREEN, YELLOW, BLACK, BLUE). -/
inductive Color
  | red
  | green
  | yellow
  | black
  | blue
deriving DecidableEq, Repr

/-- A card value: the `color` and `number` attributes of `VisualCard`
(`notty/src/visual/card.py`); numbers range over 1..9 in play, but the
logic is defined for any integer. -/
structure Card where
  color : Color
  number : Int
deriving DecidableEq, Repr

/-- Modelled from the spec: `MAX_HAND_SIZE` lives in `notty/src/consts.py`,
which is not in the source tree; spec section 3 fixes it at 20. -/
def MAX_HAND_SIZE : Nat := 20

/-- Modelled from the spec: `TOTAL_CARDS` lives in `notty/src/consts.py`,
which is not in the source tree; spec section 3 fixes the total deck size
at 90 (5 colors, 9 numbers, multiplicity 2). -/
def TOTAL_CARDS : Nat := 90

/-- The comparison used by `cards.sort(key=lambda card: card.number)` in
`VisualGame.card_group_is_valid` (game.py line 468). -/
def byNumber (a b : Card) : Prop := a.number ≤ b.number

instance : DecidableRel byNumber :=
  fun a b => inferInstanceAs (Decidable (a.number ≤ b.number))

instance : IsTotal Card byNumber := ⟨fun a b => Int.le_total a.number b.number⟩

instance : IsTrans Card byNumber := ⟨fun _ _ _ h h' => Int.le_trans h h'⟩

/-- Sorting the card list by number, as `cards.sort(key=lambda c: c.number)`
does in game.py line 468.  Python's sort is stable, but every observation
the validator makes (the number sequence, and set cardinalities of colors
and numbers) is the same for any number-sorting permutation, so insertion
sort is an equivalent model. -/
def sortByNumber (cards : List Card) : List Card := cards.insertionSort byNumber

/-- The check `all(b - a == 1 for a, b in itertools.pairwise(numbers))`
from game.py line 474. -/
def consecutiveNumbers : List Int → Bool
  | [] => true
  | [_] => true
  | a :: b :: rest => (b - a == 1) && consecutiveNumbers (b :: rest)

/-- Source: `VisualGame.card_group_is_valid` (game.py lines 456-491).
Sorts by number, then accepts a run (at least 3 cards, one color,
consecutive numbers) or a set (at least 4 cards, unique colors, one
number).  Python's `len(set(xs))` is the length of `xs.dedup`. -/
def card_group_is_valid (cards : List Card) : Bool :=
  let sorted := sortByNumber cards
  let numbers := sorted.map (·.number)
  let colors := sorted.map (·.color)
  let one_color := colors.dedup.length == 1
  let unique_colors := colors.dedup.length == colors.length
  let consecutive := consecutiveNumbers numbers
  let one_number := numbers.dedup.length == 1
  (decide (3 ≤ cards.length) && one_color && consecutive) ||
    (decide (4 ≤ cards.length) && unique_colors && one_number)

/-- Source: `VisualGame.can_discard_group` (game.py lines 493-506):
`for i in range(3, 5)` enumerates combinations of sizes 3 and 4 only;
`itertools.combinations(hand, i)` enumerates the length-`i` sublists. -/
def can_discard_group (hand : List Card) : Bool :=
  [3, 4].any fun i => (List.sublistsLen i hand).any fun g => card_group_is_valid g

/-- Source: `VisualGame.get_discardable_groups` (game.py lines 508-522):
`for i in range(3, len(cards) + 1)` enumerates all sizes from 3 up to the
hand size and collects every valid combination. -/
def get_discardable_groups (hand : List Card) : List (List Card) :=
  (List.range' 3 (hand.length - 2)).flatMap fun i =>
    (List.sublistsLen i hand).filter fun g => card_group_is_valid g

/-- Spec wording (section 4.1): a run is at least 3 cards, all the same
color, numbers strictly consecutive with step 1 after sorting by number. -/
def IsRun (cards : List Card) : Prop :=
  3 ≤ cards.length ∧ (∃ c, ∀ x ∈ cards, x.color = c) ∧
    List.Chain' (fun a b : Int => b = a + 1)
      ((cards.map (·.number)).insertionSort (· ≤ ·))

/-- Spec wording (section 4.1): a set is at least 4 cards, all distinct
colors (no repeats), all the same number. -/
def IsSet (cards : List Card) : Prop :=
  4 ≤ cards.length ∧ (cards.map (·.color)).Nodup ∧ ∃ n, ∀ x ∈ cards, x.number = n


/-! Game state machine (`notty/src/visual/game.py`), with hands from
`notty/src/visual/player.py` and the deck modelled from the spec. -/

/-- Alphabetical rank of the Python color strings, for the hand ordering
`key=lambda card: (card.color, card.number)` in `VisualHand.order_cards`
("black" < "blue" < "green" < "red" < "yellow"). -/
def colorKey : Color → Nat
  | .black => 0
  | .blue => 1
  | .green => 2
  | .red => 3
  | .yellow => 4

/-- The lexicographic (color, number) comparison used by
`VisualHand.order_cards` (player.py line 124). -/
def byColorNumber (a b : Card) : Prop :=
  colorKey a.color < colorKey b.color ∨
    (colorKey a.color = colorKey b.color ∧ a.number ≤ b.number)

instance : DecidableRel byColorNumber :=
  fun _ _ => inferInstanceAs (Decidable (_ ∨ _))

/-- Hand canonicalization after every mutation (`VisualHand.order_cards`);
the visual repositioning is dropped. -/
def sortHand (cards : List Card) : List Card := cards.insertionSort byColorNumber

/-- Source: `VisualHand.hand_is_full` (player.py line 65): `size() >= MAX_HAND_SIZE`. -/
def hand_is_full (hand : List Card) : Bool := decide (MAX_HAND_SIZE ≤ hand.length)

/-- Source: `VisualHand.add_card` (player.py lines 73-90): raises
"Hand is full" when at capacity unless this is the draw-discard-draw
exception, otherwise appends and re-sorts. -/
def add_card (hand : List Card) (card : Card) (draw_discard_draw : Bool) :
    Except String (List Card) :=
  if decide (MAX_HAND_SIZE ≤ hand.length) && !draw_discard_draw then
    .error "Hand is full"
  else
    .ok (sortHand (hand ++ [card]))

/-- Source: `VisualHand.add_cards` (player.py lines 92-104): adds one by
one via `add_card` (never with the draw-discard-draw exception). -/
def add_cards (hand : List Card) : List Card → Except String (List Card)
  | [] => .ok hand
  | c :: cs => do
    let h' ← add_card hand c false
    add_cards h' cs

/-- Source: `VisualHand.remove_card` (player.py lines 106-120): removes the
card if present (re-sorting) and reports whether it was there. -/
def remove_card (hand : List Card) (card : Card) : Bool × List Card :=
  if card ∈ hand then (true, sortHand (hand.erase card)) else (false, hand)

/-- Source: `VisualHand.remove_cards` (player.py lines 132-144): removes
each card in turn, ignoring per-card failure. -/
def remove_cards (hand : List Card) : List Card → List Card
  | [] => hand
  | c :: cs => remove_cards (remove_card hand c).2 cs

/-- Modelled from the spec: `VisualDeck.draw_cards` (the deck module is not
in the source tree); section 3: "draw-N removes from one end, fails if
fewer than N remain". -/
def deck_draw_cards (deck : List Card) (count : Nat) :
    Except String (List Card × List Card) :=
  if count ≤ deck.length then .ok (deck.take count, deck.drop count)
  else .error "Not enough cards in deck"

/-- Modelled from the spec: `VisualDeck.draw_card`, drawing a single card
from the top; fails on an empty deck. -/
def deck_draw_card (deck : List Card) : Except String (Card × List Card) :=
  match deck with
  | [] => .error "Deck is empty"
  | c :: rest => .ok (c, rest)

/-- The six per-turn tracked action kinds plus the PLAY_FOR_ME escape
(the `Action` class of `notty/src/visual/action_board.py`). -/
inductive Action
  | drawMultiple
  | steal
  | drawDiscardDraw
  | drawDiscardDiscard
  | discardGroup
  | nextTurn
  | playForMe
deriving DecidableEq, Repr

/-- Modelled from the spec: `Action.get_all_actions` lives in
`notty/src/visual/action_board.py`, which is not in the source tree.
Spec section 4.3: the per-turn usage map tracks the six action kinds
DRAW_MULTIPLE, STEAL, DRAW_DISCARD_DRAW, DRAW_DISCARD_DISCARD,
DISCARD_GROUP, NEXT_TURN, while PLAY_FOR_ME is a non-counted escape
"excluded from the per-turn usage map". -/
def Action.get_all_actions : List Action :=
  [.drawMultiple, .steal, .drawDiscardDraw, .drawDiscardDiscard,
   .discardGroup, .nextTurn]

/-- The game state: one hand per player, the deck, whose turn it is, and
the per-turn usage counters (`VisualGame.__init__`, game.py lines 34-69;
visual fields dropped). -/
structure Game where
  hands : List (List Card)
  deck : List Card
  currentIdx : Nat
  used : Action → Nat

/-- Source: `VisualGame.get_current_player().hand` — the hand at
`current_player_index`. -/
def currentHand (g : Game) : List Card := g.hands.getD g.currentIdx []

/-- Source: `VisualGame.get_other_players` (game.py lines 151-157): every
hand except the one at the current index. -/
def otherHands (g : Game) : List (List Card) :=
  (g.hands.enum.filter fun p => p.1 != g.currentIdx).map fun p => p.2

/-- Incrementing one usage counter (`self.actions_used[...] += 1`). -/
def bump (u : Action → Nat) (a : Action) : Action → Nat :=
  fun b => if b = a then u b + 1 else u b

/-- The conserved quantity: `sum(player.hand.size() for player in
self.players) + self.deck.size()` (game.py lines 188-190). -/
def totalCards (g : Game) : Nat := (g.hands.map List.length).sum + g.deck.length

/-- Source: `VisualGame.next_turn` (game.py lines 175-193): advance the
index cyclically, reset the usage counters, then check the hand-size cap
and the total-card invariant, raising on violation.  The source advances
the index and resets the counters before running the checks; since the
checks read neither field, running them first is equivalent (same error,
same success state). -/
def next_turn (g : Game) : Except String Game :=
  if g.hands.any fun h => decide (MAX_HAND_SIZE < h.length) then
    .error "Hand size exceeded"
  else if totalCards g ≠ TOTAL_CARDS then
    .error "Total number of cards is not 90"
  else
    .ok { g with currentIdx := (g.currentIdx + 1) % g.hands.length,
                 used := fun _ => 0 }

/-- Source: `VisualGame.player_can_pass` (game.py lines 242-249): always true. -/
def player_can_pass (_ : Game) : Bool := true

/-- Source: `VisualGame.player_can_draw_multiple` (game.py lines 279-289). -/
def player_can_draw_multiple (g : Game) : Bool :=
  decide (g.used .drawMultiple < 1) && !g.deck.isEmpty &&
    !hand_is_full (currentHand g)

/-- Source: `VisualGame.player_can_steal` (game.py lines 331-341). -/
def player_can_steal (g : Game) : Bool :=
  decide (g.used .steal < 1) && ((otherHands g).any fun h => !h.isEmpty) &&
    !hand_is_full (currentHand g)

/-- Source: `VisualGame.player_can_draw_discard_draw` (game.py lines 383-392):
the hand may be full, only the counter and the deck are checked. -/
def player_can_draw_discard_draw (g : Game) : Bool :=
  decide (g.used .drawDiscardDraw < 1) && !g.deck.isEmpty

/-- Source: `VisualGame.player_can_draw_discard_discard` (game.py lines 410-419). -/
def player_can_draw_discard_discard (g : Game) : Bool :=
  decide (g.used .drawDiscardDiscard < 1) && decide (g.used .drawDiscardDraw = 1)

/-- Source: `VisualGame.player_passes` (game.py lines 251-262): guard, then
`next_turn`. -/
def player_passes (g : Game) : Except String Game :=
  if !player_can_pass g then .error "Cannot pass" else next_turn g

/-- Source: `VisualGame.player_draws_multiple` (game.py lines 291-310):
guard, draw `count` cards from the deck, add them to the current hand,
bump the counter. -/
def player_draws_multiple (g : Game) (count : Nat) : Except String Game :=
  if !player_can_draw_multiple g then .error "Cannot draw cards"
  else do
    let (cards, deck') ← deck_draw_cards g.deck count
    let hand' ← add_cards (currentHand g) cards
    .ok { g with hands := g.hands.set g.currentIdx hand', deck := deck',
                 used := bump g.used .drawMultiple }

/-- Source: `VisualGame.player_steals` (game.py lines 343-365): guard, the
target hand is shuffled and its last card popped (the shuffle is a
randomized permutation; it is modelled as the identity, which only fixes
which card is stolen), then added to the current hand. -/
def player_steals (g : Game) (target : Nat) : Except String Game :=
  if !player_can_steal g then .error "Cannot steal card"
  else
    let thand := g.hands.getD target []
    match thand.getLast? with
    | none => .error "pop from empty list"
    | some card => do
      let g1 : Game := { g with hands := g.hands.set target thand.dropLast }
      let hand' ← add_card (currentHand g1) card false
      .ok { g1 with hands := g1.hands.set g1.currentIdx hand',
                    used := bump g.used .steal }

/-- Source: `VisualGame.player_draw_discard_draws` (game.py lines 394-408):
guard, draw one card, add it bypassing the capacity check, bump the counter. -/
def player_draw_discard_draws (g : Game) : Except String Game :=
  if !player_can_draw_discard_draw g then
    .error "Cannot do draw in action draw and discard"
  else do
    let (card, deck') ← deck_draw_card g.deck
    let hand' ← add_card (currentHand g) card true
    .ok { g with hands := g.hands.set g.currentIdx hand', deck := deck',
                 used := bump g.used .drawDiscardDraw }

/-- Source: `VisualGame.player_draw_discard_discards` (game.py lines
421-438): guard, remove the chosen card from the hand (silently a no-op if
absent), append it to the deck, bump the counter. -/
def player_draw_discard_discards (g : Game) (card : Card) : Except String Game :=
  if !player_can_draw_discard_discard g then
    .error "Cannot do discard in action draw and discard"
  else
    .ok { g with hands := g.hands.set g.currentIdx
                            (remove_card (currentHand g) card).2,
                 deck := g.deck ++ [card],
                 used := bump g.used .drawDiscardDiscard }

/-- Source: `VisualGame.player_discards_group` (game.py lines 524-542): an
invalid group returns False with no state change; a valid group is removed
from the hand and appended to the deck, returning True.  No usage counter
is touched. -/
def player_discards_group (g : Game) (cards : List Card) : Bool × Game :=
  if !card_group_is_valid cards then (false, g)
  else
    (true, { g with hands := g.hands.set g.currentIdx
                               (remove_cards (currentHand g) cards),
                    deck := g.deck ++ cards })

/-- Source: `VisualGame.action_is_possible` (game.py lines 574-606):
PLAY_FOR_ME is always reported possible; while a draw-discard-draw is
pending its discard, only DRAW_DISCARD_DISCARD is possible; otherwise each
action defers to its own legality predicate. -/
def action_is_possible (g : Game) (a : Action) : Bool :=
  if a = .playForMe then true
  else if g.used .drawDiscardDraw = 1 ∧ g.used .drawDiscardDiscard = 0 then
    a == .drawDiscardDiscard
  else
    match a with
    | .drawMultiple => player_can_draw_multiple g
    | .steal => player_can_steal g
    | .drawDiscardDraw => player_can_draw_discard_draw g
    | .drawDiscardDiscard => player_can_draw_discard_discard g
    | .discardGroup => can_discard_group (currentHand g)
    | .nextTurn => player_can_pass g
    | .playForMe => true

/-- Source: `VisualGame.get_all_possible_actions` (game.py lines 608-618). -/
def get_all_possible_actions (g : Game) : List Action :=
  Action.get_all_actions.filter fun a => action_is_possible g a

/-- The pending-discard gate of `action_is_possible`: a draw-discard-draw
has been used this turn and its matching discard has not. -/
def Gate (g : Game) : Prop :=
  g.used .drawDiscardDraw = 1 ∧ g.used .drawDiscardDiscard = 0

instance (g : Game) : Decidable (Gate g) := inferInstanceAs (Decidable (_ ∧ _))

/-- The inductive state invariant maintained by legal play: at least one
player, a valid current index, the conserved card count, coherent
draw-discard counters, all hands within capacity except that the current
hand may exceed it by one card exactly while the discard gate is pending. -/
structure Inv (g : Game) : Prop where
  players_pos : 0 < g.hands.length
  idx_lt : g.currentIdx < g.hands.length
  total : totalCards g = TOTAL_CARDS
  disc_le_draw : g.used .drawDiscardDiscard ≤ g.used .drawDiscardDraw
  draw_le_one : g.used .drawDiscardDraw ≤ 1
  others_le : ∀ i, i < g.hands.length → i ≠ g.currentIdx →
    (g.hands.getD i []).length ≤ MAX_HAND_SIZE
  current_le : (currentHand g).length ≤ MAX_HAND_SIZE +
    (g.used .drawDiscardDraw - g.used .drawDiscardDiscard)

/-- An action request with its externally-supplied parameters, as passed
to `VisualGame.do_action` (game.py lines 620-655). -/
inductive ActInput
  | drawMultiple (count : Nat)
  | steal (target : Nat)
  | drawDiscardDraw
  | drawDiscardDiscard (card : Card)
  | discardGroup (cards : List Card)
  | pass

/-- The action kind an input requests. -/
def ActInput.action : ActInput → Action
  | .drawMultiple _ => .drawMultiple
  | .steal _ => .steal
  | .drawDiscardDraw => .drawDiscardDraw
  | .drawDiscardDiscard _ => .drawDiscardDiscard
  | .discardGroup _ => .discardGroup
  | .pass => .nextTurn

/-- Legality of the externally-supplied parameters: the drawn count fits in
the hand and the deck, the steal target is another player with a card, the
discarded card is in hand, and the discarded group is a valid group taken
from the hand. -/
def paramsLegal (g : Game) : ActInput → Prop
  | .drawMultiple count =>
      (currentHand g).length + count ≤ MAX_HAND_SIZE ∧ count ≤ g.deck.length
  | .steal target => target < g.hands.length ∧ target ≠ g.currentIdx ∧
      g.hands.getD target [] ≠ []
  | .drawDiscardDraw => True
  | .drawDiscardDiscard card => card ∈ currentHand g
  | .discardGroup cards =>
      card_group_is_valid cards = true ∧ cards <+~ currentHand g
  | .pass => True

/-- A legal invocation: the action is currently offered by
`action_is_possible` and its parameters are legal. -/
def Legal (g : Game) (inp : ActInput) : Prop :=
  action_is_possible g inp.action = true ∧ paramsLegal g inp

/-- Dispatch of `VisualGame.do_action` (game.py lines 620-655) restricted
to the six game actions (PLAY_FOR_ME delegates to the whole computer
pipeline and is not a state-machine action).  `player_discards_group`
reports failure through its boolean rather than an exception. -/
def doAction (g : Game) : ActInput → Except String Game
  | .drawMultiple count => player_draws_multiple g count
  | .steal target => player_steals g target
  | .drawDiscardDraw => player_draw_discard_draws g
  | .drawDiscardDiscard card => player_draw_discard_discards g card
  | .discardGroup cards => .ok (player_discards_group g cards).2
  | .pass => player_passes g

/-- Whether an `Except` computation failed (the Python call raised). -/
def raises {α : Type} : Except String α → Bool
  | .error _ => true
  | .ok _ => false

/-! Q-learning agent (`notty/src/qlearning_agent.py`).  The mutable
`defaultdict` table is modelled as an association list with lookups
defaulting to 0; reals stand in for Python floats. -/

/-- The discretized state tuple `(hand_bucket, deck_bucket, can_discard,
other_hand_bucket)` produced by `QLearningAgent.get_state`. -/
abbrev QState : Type := Nat × Nat × Bool × Nat

/-- One row of the Q-table: action name to estimated value. -/
abbrev QRow : Type := List (String × ℝ)

/-- The agent state (`QLearningAgent.__init__`, qlearning_agent.py lines
19-49); `last_state`/`last_action` are passed explicitly to `learn`
instead of being stored. -/
structure Agent where
  q_table : List (QState × QRow)
  alpha : ℝ
  gamma : ℝ
  epsilon : ℝ
  epsilon_decay : ℝ
  epsilon_min : ℝ
  total_actions : Nat
  exploration_actions : Nat

/-- Reading `self.q_table[state][action]` on the double `defaultdict`:
missing state or action defaults to 0.0. -/
def lookupQ (tbl : List (QState × QRow)) (s : QState) (a : String) : ℝ :=
  match tbl.lookup s with
  | none => 0
  | some row =>
    match row.lookup a with
    | none => 0
    | some v => v

/-- Writing one action value inside a row, inserting if absent. -/
def setRow (row : QRow) (a : String) (v : ℝ) : QRow :=
  match row with
  | [] => [(a, v)]
  | (b, w) :: rest => if b = a then (b, v) :: rest else (b, w) :: setRow rest a v

/-- Writing `self.q_table[state][action] = v`, inserting if absent. -/
def setQ (tbl : List (QState × QRow)) (s : QState) (a : String) (v : ℝ) :
    List (QState × QRow) :=
  match tbl with
  | [] => [(s, [(a, v)])]
  | (t, row) :: rest =>
    if t = s then (t, setRow row a v) :: rest else (t, row) :: setQ rest s a v

/-- Source: `QLearningAgent.learn` (qlearning_agent.py lines 122-149): the
TD update `new_q = old_q + alpha * (reward + gamma * next_max_q - old_q)`
(lines 144-146) followed by the epsilon decay (line 149).  The source
computes `next_max_q` from the post-action game (lines 132-141) and keeps
`(last_state, last_action)` in mutable fields; both are passed here
explicitly. -/
def learn (ag : Agent) (key : QState × String) (reward nextMax : ℝ) : Agent :=
  let old_q := lookupQ ag.q_table key.1 key.2
  let new_q := old_q + ag.alpha * (reward + ag.gamma * nextMax - old_q)
  { ag with q_table := setQ ag.q_table key.1 key.2 new_q,
            epsilon := max ag.epsilon_min (ag.epsilon * ag.epsilon_decay) }

/-- Iterating `learn` on one fixed (state, action) key with a fixed reward
and `next_max = 0`, as in the convergence property of spec section 8. -/
def learnIter (ag : Agent) (key : QState × String) (r : ℝ) : Nat → Agent
  | 0 => ag
  | k + 1 => learn (learnIter ag key r k) key r 0

/-- The serialized record written by `QLearningAgent.save`
(qlearning_agent.py lines 162-169): the table plus epsilon and the two
action counters.  The pickle byte encoding and the file itself are
abstracted into this value. -/
structure SaveData where
  q_table : List (QState × QRow)
  epsilon : ℝ
  total_actions : Nat
  exploration_actions : Nat

/-- Source: `QLearningAgent.save` (qlearning_agent.py lines 156-173). -/
def save (ag : Agent) : SaveData :=
  { q_table := ag.q_table, epsilon := ag.epsilon,
    total_actions := ag.total_actions,
    exploration_actions := ag.exploration_actions }

/-- Source: `QLearningAgent.load` (qlearning_agent.py lines 175-210): a
missing file logs and returns False before touching any agent field;
otherwise the table is rebuilt entry by entry and epsilon and the counters
are restored, returning True.  The filesystem at the path is modelled as
an optional stored record. -/
def load (ag : Agent) (file : Option SaveData) : Bool × Agent :=
  match file with
  | none => (false, ag)
  | some d =>
    (true, { ag with q_table := d.q_table, epsilon := d.epsilon,
                     total_actions := d.total_actions,
                     exploration_actions := d.exploration_actions })

/-- A (state, action) pair that has an entry in the table. -/
def storedPair (tbl : List (QState × QRow)) (s : QState) (a : String) : Prop :=
  ∃ row, tbl.lookup s = some row ∧ (row.lookup a).isSome = true

/-! Computer policy heuristics (`notty/src/computer_action_selection.py`). -/

/-- All five colors, for iterating the per-color sequence analysis of
`choose_draw_count` (the source iterates the colors present in the hand;
absent colors contribute no adjacent pairs, so iterating all five is
equivalent). -/
def allColors : List Color := [.red, .green, .yellow, .black, .blue]

/-- Counting `color_cards[i + 1] - color_cards[i] == 1` over consecutive
positions (computer_action_selection.py lines 84-86). -/
def adjacentOnePairs : List Int → Nat
  | [] => 0
  | [_] => 0
  | a :: b :: rest => (if b - a = 1 then 1 else 0) + adjacentOnePairs (b :: rest)

/-- The `sequence_potential` loop (computer_action_selection.py lines
80-86): per color, sort that color's numbers and count adjacent
unit steps. -/
def sequencePotential (cards : List Card) : Nat :=
  (allColors.map fun c =>
    adjacentOnePairs
      (((cards.filter fun x => x.color == c).map (·.number)).insertionSort
        (· ≤ ·))).sum

/-- The `set_potential` count (computer_action_selection.py line 89):
distinct numbers held with multiplicity at least 3. -/
def setPotential (cards : List Card) : Nat :=
  ((cards.map (·.number)).dedup.filter fun n =>
    decide (3 ≤ (cards.map (·.number)).count n)).length

/-- `min(p.hand.size() for p in other_players) if other_players else 20`
(computer_action_selection.py lines 102-104). -/
def minOpponentHand (g : Game) : Nat :=
  match (otherHands g).map List.length with
  | [] => 20
  | s :: rest => rest.foldl min s

/-- The heuristic value of `choose_draw_count`
(computer_action_selection.py lines 62-115) before the final clamp:
factor 1 (hand-size bands), factor 2 (group potential), factor 3
(opponent pressure), factor 4 (deck size). -/
def draw_count_heuristic (g : Game) : Int :=
  let hand_size : Int := (currentHand g).length
  let deck_size : Int := g.deck.length
  let cards := currentHand g
  let dc0 : Int := 2
  let dc1 : Int :=
    if 18 ≤ hand_size then 1
    else if 15 ≤ hand_size then min dc0 2
    else if hand_size ≤ 6 then 3
    else dc0
  let total_potential : Int := (sequencePotential cards : Int) + setPotential cards
  let dc2 : Int :=
    if 3 ≤ total_potential then min (dc1 + 1) 3
    else if total_potential = 0 ∧ 10 < hand_size then max (dc1 - 1) 1
    else dc1
  let dc3 : Int := if (minOpponentHand g : Int) ≤ 4 then min (dc2 + 1) 3 else dc2
  if deck_size < 10 then min dc3 1
  else if deck_size < 20 then min dc3 2
  else dc3

/-- Source: `choose_draw_count` (computer_action_selection.py lines
42-120): the heuristic value clamped by
`min(draw_count, MAX_HAND_SIZE - hand_size, deck_size, 3)` (line 118-119)
with floor 1 (line 120). -/
def choose_draw_count (g : Game) : Int :=
  max (min (min (draw_count_heuristic g)
    (min ((MAX_HAND_SIZE : Int) - (currentHand g).length) g.deck.length)) 3) 1

/-! Concrete states used as witnesses. -/

/-- One copy of each (color, number) card. -/
def oneRound : List Card :=
  allColors.flatMap fun c => (List.range' 1 9).map fun n => Card.mk c (n : Int)

/-- Modelled from the spec: the full 90-card deck (spec section 3), every
(color, number) pair with multiplicity 2. -/
def fullDeck : List Card := oneRound ++ oneRound

/-- A fresh two-player game: empty hands, full deck, player 0 to move. -/
def demoGame : Game :=
  { hands := [[], []], deck := fullDeck, currentIdx := 0, used := fun _ => 0 }

/-- A state in the middle of a draw-discard-draw, awaiting its discard. -/
def gateDemo : Game :=
  { hands := [[Card.mk .red 1], []], deck := [Card.mk .blue 2],
    currentIdx := 0,
    used := fun a => if a = .drawDiscardDraw then 1 else 0 }

/-- A state where all per-turn counters are exhausted and the deck is
empty, so every guarded action is illegal. -/
def stuckGame : Game :=
  { hands := [[Card.mk .red 1], []], deck := [], currentIdx := 0,
    used := fun _ => 1 }

/-- A hand that is exactly one five-card same-color run. -/
def fiveRun : List Card :=
  [Card.mk .blue 1, Card.mk .blue 2, Card.mk .blue 3, Card.mk .blue 4,
   Card.mk .blue 5]

/-- A small populated agent with the source's default hyperparameters. -/
def agentDemo : Agent :=
  { q_table := [((0, 0, false, 0), [("steal", 5)])],
    alpha := 0.1, gamma := 0.9, epsilon := 0.2, epsilon_decay := 0.9995,
    epsilon_min := 0.05, total_actions := 0, exploration_actions := 0 }

section ValidatorLemmas

/-- Two booleans are equal as soon as their truth conditions agree. -/
theorem bool_eq_of_iff {a b : Bool} (h : a = true ↔ b = true) : a = b := by
  cases a <;> cases b <;> simp_all

/-- Deduplication keeps the length exactly when there are no duplicates. -/
theorem dedup_length_eq_iff {α : Type} [DecidableEq α] (l : List α) :
    l.dedup.length = l.length ↔ l.Nodup := by
  constructor
  · intro h
    have heq : l.dedup = l := (List.dedup_sublist l).eq_of_length h
    exact heq ▸ l.nodup_dedup
  · intro h
    rw [h.dedup]

/-- Deduplication yields a single element exactly when the list is nonempty
and all its elements coincide. -/
theorem dedup_length_eq_one_iff {α : Type} [DecidableEq α] (l : List α) :
    l.dedup.length = 1 ↔ ∃ a, l ≠ [] ∧ ∀ x ∈ l, x = a := by
  constructor
  · intro h
    obtain ⟨a, ha⟩ := List.length_eq_one.mp h
    refine ⟨a, ?_, ?_⟩
    · intro hnil
      simp [hnil] at ha
    · intro x hx
      have : x ∈ l.dedup := List.mem_dedup.mpr hx
      rw [ha] at this
      simpa using this
  · rintro ⟨a, hne, hall⟩
    have hmem : a ∈ l.dedup := by
      rcases l with _ | ⟨x, xs⟩
      · exact absurd rfl hne
      · have : x = a := hall x (by simp)
        subst this
        exact List.mem_dedup.mpr (by simp)
    have hsub : ∀ x ∈ l.dedup, x = a := fun x hx => hall x (List.mem_dedup.mp hx)
    have hnd : l.dedup.Nodup := l.nodup_dedup
    rcases hdl : l.dedup with _ | ⟨y, ys⟩
    · rw [hdl] at hmem; simp at hmem
    · rcases ys with _ | ⟨z, zs⟩
      · rfl
      · exfalso
        have hy : y = a := hsub y (by rw [hdl]; simp)
        have hz : z = a := hsub z (by rw [hdl]; simp)
        rw [hdl] at hnd
        simp [hy, hz] at hnd

/-- Sorting integers by value gives the same result on any two permutations
of the same multiset, because the sorted order is unique. -/
theorem int_sort_eq_of_perm {l l' : List Int} (h : l ~ l') :
    l.insertionSort (· ≤ ·) = l'.insertionSort (· ≤ ·) := by
  apply List.eq_of_perm_of_sorted (r := (· ≤ · : Int → Int → Prop))
  · exact (List.perm_insertionSort _ l).trans (h.trans (List.perm_insertionSort _ l').symm)
  · exact List.sorted_insertionSort _ l
  · exact List.sorted_insertionSort _ l'

/-- The numbers read off the sorted card list are exactly the sorted list of
the cards' numbers. -/
theorem map_number_sortByNumber (l : List Card) :
    (sortByNumber l).map (·.number) = (l.map (·.number)).insertionSort (· ≤ ·) := by
  apply List.eq_of_perm_of_sorted (r := (· ≤ · : Int → Int → Prop))
  · exact ((List.perm_insertionSort byNumber l).map _).trans
      (List.perm_insertionSort _ _).symm
  · exact List.Pairwise.map _ (fun _ _ hab => hab) (List.sorted_insertionSort byNumber l)
  · exact List.sorted_insertionSort _ _

/-- The pairwise step-one check is the chain of successor steps. -/
theorem consecutiveNumbers_iff (l : List Int) :
    consecutiveNumbers l = true ↔ List.Chain' (fun a b : Int => b = a + 1) l := by
  induction l with
  | nil => simp [consecutiveNumbers]
  | cons a t ih =>
    cases t with
    | nil => simp [consecutiveNumbers]
    | cons b r =>
      rw [consecutiveNumbers, Bool.and_eq_true, List.chain'_cons, ih, beq_iff_eq]
      constructor
      · rintro ⟨h1, h2⟩; exact ⟨by omega, h2⟩
      · rintro ⟨h1, h2⟩; exact ⟨by omega, h2⟩

/-- Having a single color value in the sorted hand means all cards share
one color (and the hand is nonempty). -/
theorem one_color_iff (cards : List Card) :
    ((sortByNumber cards).map (·.color)).dedup.length = 1 ↔
      (cards ≠ [] ∧ ∃ c, ∀ x ∈ cards, x.color = c) := by
  rw [dedup_length_eq_one_iff]
  have hperm : sortByNumber cards ~ cards := List.perm_insertionSort _ _
  constructor
  · rintro ⟨c, hne, hall⟩
    refine ⟨?_, c, ?_⟩
    · intro h
      apply hne
      simp [sortByNumber, h]
    · intro x hx
      exact hall x.color (List.mem_map.mpr ⟨x, hperm.mem_iff.mpr hx, rfl⟩)
  · rintro ⟨hne, c, hall⟩
    refine ⟨c, ?_, ?_⟩
    · simp only [ne_eq, List.map_eq_nil_iff]
      intro h
      exact hne (hperm.symm.trans (h ▸ List.Perm.refl [])).eq_nil
    · intro y hy
      obtain ⟨x, hx, rfl⟩ := List.mem_map.mp hy
      exact hall x (hperm.mem_iff.mp hx)

/-- Having a single number value in the sorted hand means all cards share
one number (and the hand is nonempty). -/
theorem one_number_iff (cards : List Card) :
    ((cards.map (·.number)).insertionSort (· ≤ ·)).dedup.length = 1 ↔
      (cards ≠ [] ∧ ∃ n, ∀ x ∈ cards, x.number = n) := by
  rw [dedup_length_eq_one_iff]
  have hperm : (cards.map (·.number)).insertionSort (· ≤ ·) ~ cards.map (·.number) :=
    List.perm_insertionSort _ _
  constructor
  · rintro ⟨n, hne, hall⟩
    refine ⟨?_, n, ?_⟩
    · intro h
      apply hne
      simp [h]
    · intro x hx
      exact hall x.number (hperm.mem_iff.mpr (List.mem_map.mpr ⟨x, hx, rfl⟩))
  · rintro ⟨hne, n, hall⟩
    refine ⟨n, ?_, ?_⟩
    · intro h
      have hmapnil : cards.map (·.number) = [] := (h ▸ hperm).symm.eq_nil
      exact hne (List.map_eq_nil_iff.mp hmapnil)
    · intro y hy
      obtain ⟨x, hx, rfl⟩ := List.mem_map.mp (hperm.mem_iff.mp hy)
      exact hall x hx

/-- The unique-colors test on the sorted hand is exactly color-nodup of the
original hand. -/
theorem unique_colors_iff (cards : List Card) :
    ((sortByNumber cards).map (·.color)).dedup.length =
        ((sortByNumber cards).map (·.color)).length ↔
      (cards.map (·.color)).Nodup := by
  rw [dedup_length_eq_iff]
  exact ((List.perm_insertionSort byNumber cards).map _).nodup_iff

/-- Characterization of the group validator: a group is accepted exactly
when it is a run or a set in the sense of the spec. -/
theorem card_group_is_valid_iff (cards : List Card) :
    card_group_is_valid cards = true ↔ IsRun cards ∨ IsSet cards := by
  have hperm : sortByNumber cards ~ cards := List.perm_insertionSort _ _
  unfold card_group_is_valid IsRun IsSet
  simp only [Bool.or_eq_true, Bool.and_eq_true, decide_eq_true_eq, beq_iff_eq]
  rw [map_number_sortByNumber, consecutiveNumbers_iff]
  constructor
  · rintro (⟨⟨h3, hcol⟩, hchain⟩ | ⟨⟨h4, huniq⟩, hone⟩)
    · obtain ⟨_, c, hc⟩ := (one_color_iff cards).mp hcol
      exact Or.inl ⟨h3, ⟨c, hc⟩, hchain⟩
    · obtain ⟨_, n, hn⟩ := (one_number_iff cards).mp hone
      exact Or.inr ⟨h4, (unique_colors_iff cards).mp huniq, n, hn⟩
  · rintro (⟨h3, hc, hchain⟩ | ⟨h4, huniq, hn⟩)
    · refine Or.inl ⟨⟨h3, (one_color_iff cards).mpr ⟨?_, hc⟩⟩, hchain⟩
      intro h
      rw [h] at h3; simp at h3
    · refine Or.inr ⟨⟨h4, (unique_colors_iff cards).mpr huniq⟩,
        (one_number_iff cards).mpr ⟨?_, hn⟩⟩
      intro h
      rw [h] at h4; simp at h4

/-- The group validator only sees the multiset of cards: permuting the
input list does not change the verdict. -/
theorem card_group_is_valid_perm {l l' : List Card} (h : l ~ l') :
    card_group_is_valid l = card_group_is_valid l' := by
  apply bool_eq_of_iff
  rw [card_group_is_valid_iff, card_group_is_valid_iff]
  have hrun : IsRun l ↔ IsRun l' := by
    unfold IsRun
    rw [h.length_eq, int_sort_eq_of_perm (h.map _)]
    constructor
    · rintro ⟨h3, ⟨c, hc⟩, hch⟩
      exact ⟨h3, ⟨c, fun x hx => hc x (h.mem_iff.mpr hx)⟩, hch⟩
    · rintro ⟨h3, ⟨c, hc⟩, hch⟩
      exact ⟨h3, ⟨c, fun x hx => hc x (h.mem_iff.mp hx)⟩, hch⟩
  have hset : IsSet l ↔ IsSet l' := by
    unfold IsSet
    rw [h.length_eq, (h.map (·.color)).nodup_iff]
    constructor
    · rintro ⟨h4, hu, n, hn⟩
      exact ⟨h4, hu, n, fun x hx => hn x (h.mem_iff.mpr hx)⟩
    · rintro ⟨h4, hu, n, hn⟩
      exact ⟨h4, hu, n, fun x hx => hn x (h.mem_iff.mp hx)⟩
  rw [hrun, hset]

end ValidatorLemmas

section DiscoveryLemmas

/-- Membership in the exhaustive discovery list: exactly the valid
sublists of the hand with at least 3 cards. -/
theorem mem_get_discardable_groups {hand g : List Card} :
    g ∈ get_discardable_groups hand ↔
      g <+ hand ∧ 3 ≤ g.length ∧ card_group_is_valid g = true := by
  unfold get_discardable_groups
  simp only [List.mem_flatMap, List.mem_filter, List.mem_sublistsLen, List.mem_range']
  constructor
  · rintro ⟨i, ⟨j, hj, rfl⟩, ⟨hsub, hlen⟩, hval⟩
    exact ⟨hsub, by omega, hval⟩
  · rintro ⟨hsub, h3, hval⟩
    have hle : g.length ≤ hand.length := hsub.length_le
    exact ⟨g.length, ⟨g.length - 3, by omega, by omega⟩, ⟨hsub, rfl⟩, hval⟩

/-- Membership characterization of the fast check: it succeeds exactly on a
valid sublist of size 3 or 4. -/
theorem can_discard_group_iff {hand : List Card} :
    can_discard_group hand = true ↔
      ∃ t, t <+ hand ∧ (t.length = 3 ∨ t.length = 4) ∧
        card_group_is_valid t = true := by
  unfold can_discard_group
  simp only [List.any_eq_true, List.mem_sublistsLen, List.mem_cons,
    List.mem_singleton, List.not_mem_nil]
  constructor
  · rintro ⟨i, hi, t, ⟨hsub, hlen⟩, hval⟩
    rcases hi with rfl | rfl | h
    · exact ⟨t, hsub, Or.inl hlen, hval⟩
    · exact ⟨t, hsub, Or.inr hlen, hval⟩
    · cases h
  · rintro ⟨t, hsub, hlen | hlen, hval⟩
    · exact ⟨3, Or.inl rfl, t, ⟨hsub, hlen⟩, hval⟩
    · exact ⟨4, Or.inr (Or.inl rfl), t, ⟨hsub, hlen⟩, hval⟩

/-- Every valid group contains a valid sub-multiset of size exactly 3 (for
a run) or 4 (for a set): the three smallest cards of a run are again a
run, and any four cards of a set are again a set. -/
theorem exists_small_valid {g : List Card} (h : card_group_is_valid g = true) :
    ∃ t, t <+~ g ∧ (t.length = 3 ∨ t.length = 4) ∧
      card_group_is_valid t = true := by
  rcases (card_group_is_valid_iff g).mp h with hrun | hset
  · obtain ⟨h3, ⟨c, hc⟩, hchain⟩ := hrun
    have hperm : sortByNumber g ~ g := List.perm_insertionSort _ _
    have hslen : (sortByNumber g).length = g.length := hperm.length_eq
    refine ⟨(sortByNumber g).take 3, ?_, ?_, ?_⟩
    · exact ((sortByNumber g).take_sublist 3).subperm.trans hperm.subperm
    · left
      rw [List.length_take]
      omega
    · apply (card_group_is_valid_iff _).mpr
      left
      have hmap : ((sortByNumber g).take 3).map (·.number) =
          ((g.map (·.number)).insertionSort (· ≤ ·)).take 3 := by
        rw [List.map_take, map_number_sortByNumber]
      have hsorted3 : ((sortByNumber g).take 3).map (·.number) |>.Sorted (· ≤ ·) := by
        rw [hmap]
        exact (List.sorted_insertionSort _ _).sublist (List.take_sublist _ _)
      refine ⟨?_, ⟨c, ?_⟩, ?_⟩
      · rw [List.length_take]; omega
      · intro x hx
        exact hc x (hperm.mem_iff.mp (List.take_subset _ _ hx))
      · rw [hsorted3.insertionSort_eq, hmap]
        exact hchain.take 3
  · obtain ⟨h4, huniq, n, hn⟩ := hset
    refine ⟨g.take 4, (g.take_sublist 4).subperm, ?_, ?_⟩
    · right
      rw [List.length_take]
      omega
    · apply (card_group_is_valid_iff _).mpr
      right
      refine ⟨?_, ?_, ⟨n, ?_⟩⟩
      · rw [List.length_take]; omega
      · rw [List.map_take]
        exact (List.take_sublist 4 (g.map (·.color))).nodup huniq
      · intro x hx
        exact hn x (List.take_subset _ _ hx)

/-- The fast size-3/4 check agrees with the exhaustive discovery on every
hand: a hand has a discardable group of size 3 or 4 exactly when it has one
of any size, because every larger run contains a 3-card run and every
larger set contains a 4-card set. -/
theorem can_discard_group_agrees (hand : List Card) :
    can_discard_group hand = true ↔ get_discardable_groups hand ≠ [] := by
  constructor
  · intro h
    obtain ⟨t, hsub, hlen, hval⟩ := can_discard_group_iff.mp h
    apply List.ne_nil_of_mem (a := t)
    exact mem_get_discardable_groups.mpr ⟨hsub, by omega, hval⟩
  · intro h
    obtain ⟨gmem, hg⟩ := List.exists_mem_of_ne_nil _ h
    obtain ⟨hsub, h3, hval⟩ := mem_get_discardable_groups.mp hg
    obtain ⟨t, hsp, hlen, htval⟩ := exists_small_valid hval
    obtain ⟨t', hperm', hsub'⟩ := hsp.trans hsub.subperm
    apply can_discard_group_iff.mpr
    refine ⟨t', hsub', ?_, ?_⟩
    · rw [hperm'.length_eq]; exact hlen
    · rw [card_group_is_valid_perm hperm', htval]

end DiscoveryLemmas
section GameLemmas

variable {α : Type}

/-- Sorting a hand keeps it a permutation of itself. -/
theorem sortHand_perm (l : List Card) : sortHand l ~ l :=
  List.perm_insertionSort _ _

/-- Sorting a hand does not change its size. -/
theorem sortHand_length (l : List Card) : (sortHand l).length = l.length :=
  (sortHand_perm l).length_eq

/-- Reading back the position just written. -/
theorem getD_set_eq (d : α) : ∀ (l : List α) (i : Nat) (x : α), i < l.length →
    (l.set i x).getD i d = x := by
  intro l
  induction l with
  | nil => intro i x h; simp at h
  | cons a t ih =>
    intro i x h
    cases i with
    | zero => simp [List.set]
    | succ j =>
      simp only [List.set, List.getD_cons_succ]
      exact ih j x (by simpa using h)

/-- Reading any other position after a write. -/
theorem getD_set_ne (d : α) : ∀ (l : List α) (i j : Nat) (x : α), j ≠ i →
    (l.set i x).getD j d = l.getD j d := by
  intro l
  induction l with
  | nil => intro i j x _; simp
  | cons a t ih =>
    intro i j x hne
    cases i with
    | zero =>
      cases j with
      | zero => exact absurd rfl hne
      | succ k => simp [List.set]
    | succ i' =>
      cases j with
      | zero => simp [List.set]
      | succ k =>
        simp only [List.set, List.getD_cons_succ]
        exact ih i' k x (fun h => hne (by rw [h]))

/-- Writing one hand exchanges its length inside the total hand count. -/
theorem sum_length_set : ∀ (hs : List (List Card)) (i : Nat) (x : List Card),
    i < hs.length →
    ((hs.set i x).map List.length).sum + (hs.getD i []).length =
      (hs.map List.length).sum + x.length := by
  intro hs
  induction hs with
  | nil => intro i x h; simp at h
  | cons a t ih =>
    intro i x h
    cases i with
    | zero => simp [List.set]; omega
    | succ j =>
      simp only [List.set, List.map_cons, List.sum_cons, List.getD_cons_succ]
      have := ih j x (by simpa using h)
      omega

/-- Adding a batch of cards succeeds whenever the result fits under the
hand cap, and grows the hand by the batch size. -/
theorem add_cards_ok : ∀ (cs hand : List Card),
    hand.length + cs.length ≤ MAX_HAND_SIZE →
    ∃ h', add_cards hand cs = .ok h' ∧ h'.length = hand.length + cs.length := by
  intro cs
  induction cs with
  | nil => exact fun hand _ => ⟨hand, rfl, by simp [add_cards]⟩
  | cons c cs ih =>
    intro hand hle
    have hlt : hand.length < MAX_HAND_SIZE := by
      simp only [List.length_cons] at hle
      omega
    have hadd : add_card hand c false = .ok (sortHand (hand ++ [c])) := by
      simp [add_card, Nat.not_le.mpr hlt]
    have hfit : (sortHand (hand ++ [c])).length + cs.length ≤ MAX_HAND_SIZE := by
      rw [sortHand_length]
      simp only [List.length_append, List.length_cons] at hle ⊢
      simp only [List.length_nil]
      omega
    obtain ⟨h', hrun, hlen⟩ := ih (sortHand (hand ++ [c])) hfit
    refine ⟨h', ?_, ?_⟩
    · simp only [add_cards, hadd]
      exact hrun
    · rw [hlen, sortHand_length]
      simp only [List.length_append, List.length_cons, List.length_nil]
      omega

/-- Removing a batch of cards that is (as a multiset) part of the hand
leaves exactly the rest of the hand, up to order. -/
theorem remove_cards_perm : ∀ (cs rest hand : List Card),
    hand ~ cs ++ rest → remove_cards hand cs ~ rest := by
  intro cs
  induction cs with
  | nil =>
    intro rest hand h
    simpa [remove_cards] using h
  | cons c cs ih =>
    intro rest hand h
    have hc : c ∈ hand := h.mem_iff.mpr (by simp)
    have herase : hand.erase c ~ cs ++ rest := by
      have h' := h.erase c
      rwa [List.cons_append, List.erase_cons_head] at h'
    rw [remove_cards, remove_card, if_pos hc]
    exact ih rest _ ((sortHand_perm _).trans herase)

/-- A sub-multiset of the hand splits the hand, up to order. -/
theorem subperm_exists_rest {cs hand : List Card} (h : cs <+~ hand) :
    ∃ rest, hand ~ cs ++ rest := by
  obtain ⟨l, hperm, hsub⟩ := h
  obtain ⟨rest, hrest⟩ := hsub.exists_perm_append
  exact ⟨rest, hrest.trans (hperm.append_right rest)⟩

/-- The `next_turn` guard, isolated: it raises exactly on a broken card
count or an oversized hand. -/
theorem next_turn_raises_iff (g : Game) :
    raises (next_turn g) = true ↔
      (totalCards g ≠ TOTAL_CARDS ∨ ∃ h ∈ g.hands, MAX_HAND_SIZE < h.length) := by
  unfold next_turn
  by_cases hbig : (g.hands.any fun h => decide (MAX_HAND_SIZE < h.length)) = true
  · rw [if_pos hbig]
    simp only [List.any_eq_true, decide_eq_true_eq] at hbig
    simp only [raises, true_iff]
    exact Or.inr hbig
  · rw [if_neg hbig]
    simp only [List.any_eq_true, decide_eq_true_eq] at hbig
    push_neg at hbig
    by_cases htot : totalCards g ≠ TOTAL_CARDS
    · rw [if_pos htot]
      simp only [raises, true_iff]
      exact Or.inl htot
    · rw [if_neg htot]
      simp only [raises, Bool.false_eq_true, false_iff]
      push_neg
      push_neg at htot
      exact ⟨htot, hbig⟩

/-- Succeeding `next_turn`, isolated: under an intact invariant it returns
the advanced state. -/
theorem next_turn_ok (g : Game)
    (htot : totalCards g = TOTAL_CARDS)
    (hhands : ∀ h ∈ g.hands, h.length ≤ MAX_HAND_SIZE) :
    next_turn g = .ok { g with currentIdx := (g.currentIdx + 1) % g.hands.length,
                               used := fun _ => 0 } := by
  unfold next_turn
  have h1 : ¬((g.hands.any fun h => decide (MAX_HAND_SIZE < h.length)) = true) := by
    simp only [List.any_eq_true, decide_eq_true_eq]
    push_neg
    exact hhands
  rw [if_neg h1, if_neg (by push_neg; exact htot)]

/-- Positions within range read the stored element. -/
theorem getD_eq_getElem' (l : List α) (d : α) (i : Nat) (h : i < l.length) :
    l.getD i d = l[i] := by
  simp [List.getD_eq_getElem?_getD, List.getElem?_eq_getElem h]

/-- Positions out of range read the default. -/
theorem getD_eq_default' (l : List α) (d : α) (i : Nat) (h : l.length ≤ i) :
    l.getD i d = d := by
  simp [List.getD_eq_getElem?_getD, List.getElem?_eq_none h]

/-- While no discard is pending, an offered action other than
DRAW_DISCARD_DISCARD (and PLAY_FOR_ME) certifies the gate is closed. -/
theorem possible_not_gate {g : Game} {a : Action}
    (hne1 : a ≠ Action.playForMe) (hne2 : a ≠ Action.drawDiscardDiscard)
    (h : action_is_possible g a = true) : ¬Gate g := by
  intro hg
  have hg' : g.used Action.drawDiscardDraw = 1 ∧ g.used Action.drawDiscardDiscard = 0 := hg
  unfold action_is_possible at h
  rw [if_neg hne1, if_pos hg'] at h
  exact hne2 (by simpa using h)

/-- An offered DRAW_MULTIPLE reduces to its own legality predicate. -/
theorem possible_drawMultiple {g : Game} (hng : ¬Gate g)
    (h : action_is_possible g .drawMultiple = true) :
    player_can_draw_multiple g = true := by
  have hng' : ¬(g.used Action.drawDiscardDraw = 1 ∧
      g.used Action.drawDiscardDiscard = 0) := hng
  unfold action_is_possible at h
  rw [if_neg (by simp), if_neg hng'] at h
  exact h

/-- An offered STEAL reduces to its own legality predicate. -/
theorem possible_steal {g : Game} (hng : ¬Gate g)
    (h : action_is_possible g .steal = true) :
    player_can_steal g = true := by
  have hng' : ¬(g.used Action.drawDiscardDraw = 1 ∧
      g.used Action.drawDiscardDiscard = 0) := hng
  unfold action_is_possible at h
  rw [if_neg (by simp), if_neg hng'] at h
  exact h

/-- An offered DRAW_DISCARD_DRAW reduces to its own legality predicate. -/
theorem possible_ddd {g : Game} (hng : ¬Gate g)
    (h : action_is_possible g .drawDiscardDraw = true) :
    player_can_draw_discard_draw g = true := by
  have hng' : ¬(g.used Action.drawDiscardDraw = 1 ∧
      g.used Action.drawDiscardDiscard = 0) := hng
  unfold action_is_possible at h
  rw [if_neg (by simp), if_neg hng'] at h
  exact h

/-- An offered DRAW_DISCARD_DISCARD certifies the gate is open. -/
theorem possible_dddisc_gate {g : Game}
    (h : action_is_possible g .drawDiscardDiscard = true) : Gate g := by
  by_cases hg : Gate g
  · exact hg
  · have hng' : ¬(g.used Action.drawDiscardDraw = 1 ∧
        g.used Action.drawDiscardDiscard = 0) := hg
    unfold action_is_possible at h
    rw [if_neg (by simp), if_neg hng'] at h
    simp only [player_can_draw_discard_discard, Bool.and_eq_true,
      decide_eq_true_eq] at h
    exact ⟨h.2, by omega⟩

/-- Under the invariant with the gate closed, every hand (current or not)
is within capacity. -/
theorem hands_le_of_inv {g : Game} (hInv : Inv g) (hng : ¬Gate g) :
    ∀ h ∈ g.hands, h.length ≤ MAX_HAND_SIZE := by
  intro h hm
  obtain ⟨i, hi, rfl⟩ := List.mem_iff_getElem.mp hm
  by_cases hic : i = g.currentIdx
  · subst hic
    have hc := hInv.current_le
    have hd1 := hInv.disc_le_draw
    have hd2 := hInv.draw_le_one
    have hng' : ¬(g.used Action.drawDiscardDraw = 1 ∧
        g.used Action.drawDiscardDiscard = 0) := hng
    rw [currentHand, getD_eq_getElem' _ _ _ hi] at hc
    omega
  · have ho := hInv.others_le i hi hic
    rwa [getD_eq_getElem' _ _ _ hi] at ho

/-- A positional read of a list of capped hands is capped. -/
theorem getD_le_of_all {hs : List (List Card)}
    (hall : ∀ h ∈ hs, h.length ≤ MAX_HAND_SIZE) (i : Nat) :
    (hs.getD i []).length ≤ MAX_HAND_SIZE := by
  by_cases hi : i < hs.length
  · rw [getD_eq_getElem' _ _ _ hi]
    exact hall _ (hs.getElem_mem hi)
  · rw [getD_eq_default' _ _ _ (Nat.le_of_not_lt hi)]
    simp [MAX_HAND_SIZE]

/-- Binding a successful `Except` computation just continues. -/
theorem ok_bind {β γ : Type} (x : β) (f : β → Except String γ) :
    (Except.ok x >>= f) = f x := rfl

/-- The bumped counters agree with the old ones away from the bumped key. -/
theorem bump_ne (u : Action → Nat) (a b : Action) (h : b ≠ a) :
    bump u a b = u b := by
  simp [bump, h]

/-- The bumped counter increments at the bumped key. -/
theorem bump_eq (u : Action → Nat) (a : Action) : bump u a a = u a + 1 := by
  simp [bump]

/-- Passing with the gate closed under the invariant: the turn advances,
nothing else changes, and the invariant still holds. -/
theorem pass_preserves {g : Game} (hInv : Inv g) (hng : ¬Gate g) :
    player_passes g =
      .ok { g with currentIdx := (g.currentIdx + 1) % g.hands.length,
                   used := fun _ => 0 } ∧
    Inv { g with currentIdx := (g.currentIdx + 1) % g.hands.length,
                 used := fun _ => 0 } := by
  have hall := hands_le_of_inv hInv hng
  refine ⟨?_, ?_⟩
  · simp only [player_passes, player_can_pass, Bool.not_true, Bool.false_eq_true,
      if_false]
    exact next_turn_ok g hInv.total hall
  · refine ⟨hInv.players_pos, Nat.mod_lt _ hInv.players_pos, hInv.total,
      by simp, by simp, ?_, ?_⟩
    · intro i hi _
      exact getD_le_of_all hall i
    · have hb := getD_le_of_all hall ((g.currentIdx + 1) % g.hands.length)
      show (g.hands.getD ((g.currentIdx + 1) % g.hands.length) []).length ≤
        MAX_HAND_SIZE + (0 - 0)
      omega

/-- Drawing a legal number of cards under the invariant: it succeeds and
the invariant (card conservation included) still holds. -/
theorem drawMultiple_preserves {g : Game} {count : Nat} (hInv : Inv g)
    (hcan : player_can_draw_multiple g = true)
    (hfit : (currentHand g).length + count ≤ MAX_HAND_SIZE)
    (hdeck : count ≤ g.deck.length) :
    ∃ g', player_draws_multiple g count = .ok g' ∧ Inv g' := by
  have hdraw : deck_draw_cards g.deck count =
      .ok (g.deck.take count, g.deck.drop count) := by
    simp [deck_draw_cards, hdeck]
  have htake : (g.deck.take count).length = count := by
    simp [List.length_take, hdeck]
  obtain ⟨hand', hadd, hlen⟩ :=
    add_cards_ok (g.deck.take count) (currentHand g) (by rw [htake]; exact hfit)
  refine ⟨{ g with hands := g.hands.set g.currentIdx hand',
                   deck := g.deck.drop count,
                   used := bump g.used .drawMultiple }, ?_, ?_⟩
  · simp [player_draws_multiple, hcan, hdraw, hadd, ok_bind]
  · have hsum := sum_length_set g.hands g.currentIdx hand' hInv.idx_lt
    have htot := hInv.total
    unfold totalCards at htot
    refine ⟨by simpa using hInv.players_pos, by simpa using hInv.idx_lt, ?_,
      ?_, ?_, ?_, ?_⟩
    · unfold totalCards
      simp only [List.length_drop]
      rw [hlen, htake] at hsum
      unfold currentHand at hsum
      omega
    · show bump g.used Action.drawMultiple Action.drawDiscardDiscard ≤
        bump g.used Action.drawMultiple Action.drawDiscardDraw
      rw [bump_ne _ _ _ (by decide), bump_ne _ _ _ (by decide)]
      exact hInv.disc_le_draw
    · show bump g.used Action.drawMultiple Action.drawDiscardDraw ≤ 1
      rw [bump_ne _ _ _ (by decide)]
      exact hInv.draw_le_one
    · intro i hi hne
      replace hi : i < g.hands.length := by simpa using hi
      show ((g.hands.set g.currentIdx hand').getD i []).length ≤ MAX_HAND_SIZE
      rw [getD_set_ne _ _ _ _ _ hne]
      exact hInv.others_le i hi hne
    · refine le_trans ?_ (Nat.le_add_right _ _)
      show ((g.hands.set g.currentIdx hand').getD g.currentIdx []).length ≤
        MAX_HAND_SIZE
      rw [getD_set_eq _ _ _ _ hInv.idx_lt, hlen, htake]
      exact hfit

/-- Drawing the extra draw-discard-draw card under the invariant: it
succeeds, opens the gate, and the invariant still holds (the current hand
may now be one over capacity, which the gate licenses). -/
theorem ddd_preserves {g : Game} (hInv : Inv g)
    (hcan : player_can_draw_discard_draw g = true) :
    ∃ g', player_draw_discard_draws g = .ok g' ∧ Inv g' := by
  have hcan' := hcan
  simp only [player_can_draw_discard_draw, Bool.and_eq_true, decide_eq_true_eq,
    Bool.not_eq_true'] at hcan'
  obtain ⟨hlt, hne⟩ := hcan'
  have hddd0 : g.used .drawDiscardDraw = 0 := by omega
  have hdddisc0 : g.used .drawDiscardDiscard = 0 := by
    have := hInv.disc_le_draw
    omega
  have hcur_le : (currentHand g).length ≤ MAX_HAND_SIZE := by
    have := hInv.current_le
    omega
  rcases hdk : g.deck with _ | ⟨c, rest⟩
  · rw [hdk] at hne
    simp at hne
  have hdraw : deck_draw_card g.deck = .ok (c, rest) := by rw [hdk]; rfl
  have hadd : add_card (currentHand g) c true =
      .ok (sortHand (currentHand g ++ [c])) := by
    simp [add_card]
  refine ⟨{ g with
      hands := g.hands.set g.currentIdx (sortHand (currentHand g ++ [c])),
      deck := rest,
      used := bump g.used .drawDiscardDraw }, ?_, ?_⟩
  · simp [player_draw_discard_draws, hcan, hdraw, hadd, ok_bind]
  · have hsum := sum_length_set g.hands g.currentIdx
      (sortHand (currentHand g ++ [c])) hInv.idx_lt
    have hnewlen : (sortHand (currentHand g ++ [c])).length =
        (currentHand g).length + 1 := by
      rw [sortHand_length]
      simp
    have htot := hInv.total
    unfold totalCards at htot
    have hdklen : g.deck.length = rest.length + 1 := by rw [hdk]; simp
    refine ⟨by simpa using hInv.players_pos, by simpa using hInv.idx_lt, ?_,
      ?_, ?_, ?_, ?_⟩
    · show ((g.hands.set g.currentIdx (sortHand (currentHand g ++ [c]))).map
        List.length).sum + rest.length = TOTAL_CARDS
      rw [hnewlen] at hsum
      have hbridge : (currentHand g).length =
        (g.hands.getD g.currentIdx []).length := rfl
      omega
    · show bump g.used Action.drawDiscardDraw Action.drawDiscardDiscard ≤
        bump g.used Action.drawDiscardDraw Action.drawDiscardDraw
      rw [bump_ne _ _ _ (by decide), bump_eq]
      omega
    · show bump g.used Action.drawDiscardDraw Action.drawDiscardDraw ≤ 1
      rw [bump_eq]
      omega
    · intro i hi hne'
      replace hi : i < g.hands.length := by simpa using hi
      show ((g.hands.set g.currentIdx (sortHand (currentHand g ++ [c]))).getD
        i []).length ≤ MAX_HAND_SIZE
      rw [getD_set_ne _ _ _ _ _ hne']
      exact hInv.others_le i hi hne'
    · show ((g.hands.set g.currentIdx (sortHand (currentHand g ++ [c]))).getD
        g.currentIdx []).length ≤ MAX_HAND_SIZE +
        (bump g.used .drawDiscardDraw .drawDiscardDraw -
          bump g.used .drawDiscardDraw .drawDiscardDiscard)
      rw [getD_set_eq _ _ _ _ hInv.idx_lt, hnewlen, bump_eq,
        bump_ne _ _ _ (by decide)]
      omega

/-- Resolving the pending discard with a card from the hand under the
invariant: it succeeds, closes the gate, and the invariant still holds. -/
theorem dddisc_preserves {g : Game} {card : Card} (hInv : Inv g)
    (hgate : Gate g) (hmem : card ∈ currentHand g) :
    ∃ g', player_draw_discard_discards g card = .ok g' ∧ Inv g' := by
  have hcan : player_can_draw_discard_discard g = true := by
    simp [player_can_draw_discard_discard, hgate.1, hgate.2]
  have hrem : remove_card (currentHand g) card =
      (true, sortHand ((currentHand g).erase card)) := by
    simp [remove_card, hmem]
  refine ⟨{ g with
      hands := g.hands.set g.currentIdx (sortHand ((currentHand g).erase card)),
      deck := g.deck ++ [card],
      used := bump g.used .drawDiscardDiscard }, ?_, ?_⟩
  · simp [player_draw_discard_discards, hcan, hrem]
  · have hsum := sum_length_set g.hands g.currentIdx
      (sortHand ((currentHand g).erase card)) hInv.idx_lt
    have hLpos : 0 < (currentHand g).length := List.length_pos_of_mem hmem
    have hnewlen : (sortHand ((currentHand g).erase card)).length =
        (currentHand g).length - 1 := by
      rw [sortHand_length]
      exact List.length_erase_of_mem hmem
    have htot := hInv.total
    unfold totalCards at htot
    have hcur_le : (currentHand g).length ≤ MAX_HAND_SIZE + 1 := by
      have := hInv.current_le
      have h1 := hgate.1
      have h2 := hgate.2
      omega
    refine ⟨by simpa using hInv.players_pos, by simpa using hInv.idx_lt, ?_,
      ?_, ?_, ?_, ?_⟩
    · show ((g.hands.set g.currentIdx
        (sortHand ((currentHand g).erase card))).map List.length).sum +
        (g.deck ++ [card]).length = TOTAL_CARDS
      rw [hnewlen] at hsum
      have hbridge : (currentHand g).length =
        (g.hands.getD g.currentIdx []).length := rfl
      simp only [List.length_append, List.length_cons, List.length_nil]
      omega
    · show bump g.used Action.drawDiscardDiscard Action.drawDiscardDiscard ≤
        bump g.used Action.drawDiscardDiscard Action.drawDiscardDraw
      rw [bump_eq, bump_ne g.used Action.drawDiscardDiscard
        Action.drawDiscardDraw (by decide), hgate.1, hgate.2]
    · show bump g.used Action.drawDiscardDiscard Action.drawDiscardDraw ≤ 1
      rw [bump_ne _ _ _ (by decide)]
      exact hInv.draw_le_one
    · intro i hi hne'
      replace hi : i < g.hands.length := by simpa using hi
      show ((g.hands.set g.currentIdx
        (sortHand ((currentHand g).erase card))).getD i []).length ≤
        MAX_HAND_SIZE
      rw [getD_set_ne _ _ _ _ _ hne']
      exact hInv.others_le i hi hne'
    · refine le_trans ?_ (Nat.le_add_right _ _)
      show ((g.hands.set g.currentIdx
        (sortHand ((currentHand g).erase card))).getD g.currentIdx []).length ≤
        MAX_HAND_SIZE
      rw [getD_set_eq _ _ _ _ hInv.idx_lt, hnewlen]
      omega

/-- Stealing from another player with a nonempty hand under the invariant:
it succeeds, moves one card, and the invariant still holds. -/
theorem steal_preserves {g : Game} {target : Nat} (hInv : Inv g)
    (hcan : player_can_steal g = true) (htlt : target < g.hands.length)
    (htne : target ≠ g.currentIdx) (htnil : g.hands.getD target [] ≠ []) :
    ∃ g', player_steals g target = .ok g' ∧ Inv g' := by
  obtain ⟨card, hlast⟩ :=
    Option.ne_none_iff_exists'.mp (mt List.getLast?_eq_none_iff.mp htnil)
  have hfull : (currentHand g).length < MAX_HAND_SIZE := by
    have hcan' := hcan
    simp only [player_can_steal, Bool.and_eq_true, Bool.not_eq_true',
      hand_is_full, decide_eq_false_iff_not] at hcan'
    exact Nat.lt_of_not_le hcan'.2
  have hcur1 : (g.hands.set target (g.hands.getD target []).dropLast).getD
      g.currentIdx [] = currentHand g :=
    getD_set_ne _ _ _ _ _ (Ne.symm htne)
  have hnotle : ¬(MAX_HAND_SIZE ≤ (currentHand g).length) := Nat.not_le_of_lt hfull
  have hadd : add_card (currentHand g) card false =
      .ok (sortHand (currentHand g ++ [card])) := by
    simp [add_card, hnotle]
  refine ⟨{ g with
      hands := (g.hands.set target (g.hands.getD target []).dropLast).set
        g.currentIdx (sortHand (currentHand g ++ [card])),
      used := bump g.used .steal }, ?_, ?_⟩
  · simp only [player_steals, hcan, Bool.not_true, Bool.false_eq_true, if_false,
      hlast]
    simp only [currentHand] at hcur1 hadd ⊢
    rw [hcur1, hadd, ok_bind]
  · have hlen1 : target < (g.hands.set target
        (g.hands.getD target []).dropLast).length := by simpa using htlt
    have hcur1' : (g.hands.set target (g.hands.getD target []).dropLast).length =
        g.hands.length := by simp
    have hsum1 := sum_length_set g.hands target
      (g.hands.getD target []).dropLast htlt
    have hsum2 := sum_length_set
      (g.hands.set target (g.hands.getD target []).dropLast) g.currentIdx
      (sortHand (currentHand g ++ [card])) (by simpa using hInv.idx_lt)
    have htpos : 0 < (g.hands.getD target []).length :=
      List.length_pos_of_ne_nil htnil
    have hnewlen : (sortHand (currentHand g ++ [card])).length =
        (currentHand g).length + 1 := by
      rw [sortHand_length]
      simp
    have htot := hInv.total
    unfold totalCards at htot
    refine ⟨by simpa using hInv.players_pos, by simpa using hInv.idx_lt, ?_,
      ?_, ?_, ?_, ?_⟩
    · show ((((g.hands.set target (g.hands.getD target []).dropLast).set
        g.currentIdx (sortHand (currentHand g ++ [card])))).map
        List.length).sum + g.deck.length = TOTAL_CARDS
      rw [hcur1, hnewlen] at hsum2
      simp only [List.length_dropLast] at hsum1
      have hbridge : (currentHand g).length =
        (g.hands.getD g.currentIdx []).length := rfl
      omega
    · show bump g.used Action.steal Action.drawDiscardDiscard ≤
        bump g.used Action.steal Action.drawDiscardDraw
      rw [bump_ne _ _ _ (by decide), bump_ne _ _ _ (by decide)]
      exact hInv.disc_le_draw
    · show bump g.used Action.steal Action.drawDiscardDraw ≤ 1
      rw [bump_ne _ _ _ (by decide)]
      exact hInv.draw_le_one
    · intro i hi hne'
      replace hi : i < g.hands.length := by simpa using hi
      show (((g.hands.set target (g.hands.getD target []).dropLast).set
        g.currentIdx (sortHand (currentHand g ++ [card]))).getD i []).length ≤
        MAX_HAND_SIZE
      rw [getD_set_ne _ _ _ _ _ hne']
      by_cases hit : i = target
      · subst hit
        rw [getD_set_eq _ _ _ _ htlt]
        have hto := hInv.others_le i hi htne
        simp only [List.length_dropLast]
        omega
      · rw [getD_set_ne _ _ _ _ _ hit]
        exact hInv.others_le i hi hne'
    · refine le_trans ?_ (Nat.le_add_right _ _)
      show (((g.hands.set target (g.hands.getD target []).dropLast).set
        g.currentIdx (sortHand (currentHand g ++ [card]))).getD
        g.currentIdx []).length ≤ MAX_HAND_SIZE
      rw [getD_set_eq _ _ _ _ (by simpa using hInv.idx_lt), hnewlen]
      omega

/-- Discarding a valid group drawn from the hand under the invariant: it
reports success and the invariant still holds. -/
theorem discard_preserves {g : Game} {cards : List Card} (hInv : Inv g)
    (hval : card_group_is_valid cards = true)
    (hsp : cards <+~ currentHand g) :
    ∃ g', player_discards_group g cards = (true, g') ∧ Inv g' := by
  obtain ⟨rest, hrest⟩ := subperm_exists_rest hsp
  have hperm := remove_cards_perm cards rest (currentHand g) hrest
  have hk3 : 3 ≤ cards.length := by
    rcases (card_group_is_valid_iff cards).mp hval with h | h
    · exact h.1
    · obtain ⟨h4, -, -⟩ := h
      omega
  refine ⟨{ g with
      hands := g.hands.set g.currentIdx (remove_cards (currentHand g) cards),
      deck := g.deck ++ cards }, ?_, ?_⟩
  · simp [player_discards_group, hval]
  · have hsum := sum_length_set g.hands g.currentIdx
      (remove_cards (currentHand g) cards) hInv.idx_lt
    have hremlen : (remove_cards (currentHand g) cards).length = rest.length :=
      hperm.length_eq
    have hsplit : (currentHand g).length = cards.length + rest.length := by
      rw [hrest.length_eq]
      simp
    have hcur_le : (currentHand g).length ≤ MAX_HAND_SIZE + 1 := by
      have h1 := hInv.current_le
      have h2 := hInv.draw_le_one
      omega
    have htot := hInv.total
    unfold totalCards at htot
    refine ⟨by simpa using hInv.players_pos, by simpa using hInv.idx_lt, ?_,
      hInv.disc_le_draw, hInv.draw_le_one, ?_, ?_⟩
    · show ((g.hands.set g.currentIdx
        (remove_cards (currentHand g) cards)).map List.length).sum +
        (g.deck ++ cards).length = TOTAL_CARDS
      rw [hremlen] at hsum
      have hbridge : (currentHand g).length =
        (g.hands.getD g.currentIdx []).length := rfl
      simp only [List.length_append]
      omega
    · intro i hi hne'
      replace hi : i < g.hands.length := by simpa using hi
      show ((g.hands.set g.currentIdx
        (remove_cards (currentHand g) cards)).getD i []).length ≤ MAX_HAND_SIZE
      rw [getD_set_ne _ _ _ _ _ hne']
      exact hInv.others_le i hi hne'
    · refine le_trans ?_ (Nat.le_add_right _ _)
      show ((g.hands.set g.currentIdx
        (remove_cards (currentHand g) cards)).getD g.currentIdx []).length ≤
        MAX_HAND_SIZE
      rw [getD_set_eq _ _ _ _ hInv.idx_lt, hremlen]
      omega

end GameLemmas

section AgentLemmas

/-- Looking up the action value just written into a row. -/
theorem lookup_setRow_self (row : QRow) (a : String) (v : ℝ) :
    (setRow row a v).lookup a = some v := by
  induction row with
  | nil => simp [setRow]
  | cons p rest ih =>
    obtain ⟨b, w⟩ := p
    by_cases hba : b = a
    · subst hba
      simp [setRow]
    · simp only [setRow, if_neg hba, List.lookup]
      rw [show (a == b) = false from beq_eq_false_iff_ne.mpr fun h => hba h.symm]
      exact ih

/-- Looking up the value just written into the table. -/
theorem lookupQ_setQ_self (tbl : List (QState × QRow)) (s : QState)
    (a : String) (v : ℝ) : lookupQ (setQ tbl s a v) s a = v := by
  induction tbl with
  | nil => simp [setQ, lookupQ, lookup_setRow_self]
  | cons p rest ih =>
    obtain ⟨t, row⟩ := p
    by_cases hts : t = s
    · subst hts
      simp [setQ, lookupQ, lookup_setRow_self]
    · simp only [setQ, if_neg hts, lookupQ, List.lookup]
      rw [show (s == t) = false from beq_eq_false_iff_ne.mpr fun h => hts h.symm]
      exact ih

/-- The temporal-difference update equation realized by `learn`. -/
theorem learn_q (b : Agent) (key : QState × String) (r nm : ℝ) :
    lookupQ (learn b key r nm).q_table key.1 key.2 =
      lookupQ b.q_table key.1 key.2 +
        b.alpha * (r + b.gamma * nm - lookupQ b.q_table key.1 key.2) := by
  show lookupQ (setQ b.q_table key.1 key.2 _) key.1 key.2 = _
  rw [lookupQ_setQ_self]

/-- Learning never changes the learning rate. -/
theorem learnIter_alpha (ag : Agent) (key : QState × String) (r : ℝ) :
    ∀ k, (learnIter ag key r k).alpha = ag.alpha := by
  intro k
  induction k with
  | zero => rfl
  | succ k ih => simpa [learnIter, learn] using ih

/-- Learning never changes the discount factor. -/
theorem learnIter_gamma (ag : Agent) (key : QState × String) (r : ℝ) :
    ∀ k, (learnIter ag key r k).gamma = ag.gamma := by
  intro k
  induction k with
  | zero => rfl
  | succ k ih => simpa [learnIter, learn] using ih

/-- One iteration step of the repeated update, with `next_max = 0`. -/
theorem learnIter_step (ag : Agent) (key : QState × String) (r : ℝ) (k : Nat) :
    lookupQ (learnIter ag key r (k + 1)).q_table key.1 key.2 =
      lookupQ (learnIter ag key r k).q_table key.1 key.2 +
        ag.alpha * (r + ag.gamma * 0 -
          lookupQ (learnIter ag key r k).q_table key.1 key.2) := by
  show lookupQ (learn (learnIter ag key r k) key r 0).q_table key.1 key.2 = _
  rw [learn_q, learnIter_alpha, learnIter_gamma]

/-- With learning rate 0.1, a stored value below the reward stays below it
through any number of updates. -/
theorem learnIter_below (ag : Agent) (key : QState × String) (r : ℝ)
    (halpha : ag.alpha = 0.1)
    (h0 : lookupQ ag.q_table key.1 key.2 ≤ r) :
    ∀ k, lookupQ (learnIter ag key r k).q_table key.1 key.2 ≤ r := by
  intro k
  induction k with
  | zero => exact h0
  | succ k ih =>
    rw [learnIter_step, halpha, mul_zero, add_zero]
    linarith

/-- With learning rate 0.1, a stored value above the reward stays above it
through any number of updates. -/
theorem learnIter_above (ag : Agent) (key : QState × String) (r : ℝ)
    (halpha : ag.alpha = 0.1)
    (h0 : r ≤ lookupQ ag.q_table key.1 key.2) :
    ∀ k, r ≤ lookupQ (learnIter ag key r k).q_table key.1 key.2 := by
  intro k
  induction k with
  | zero => exact h0
  | succ k ih =>
    rw [learnIter_step, halpha, mul_zero, add_zero]
    linarith

end AgentLemmas

/-! Claim theorems. -/

/-- C1: for every list of cards, `card_group_is_valid` returns true if and
only if the list is a run (at least 3 cards, all the same color, numbers
strictly consecutive with step 1 after sorting by number) or a set (at
least 4 cards, all distinct colors, all the same number); any list
satisfying neither is invalid. -/
theorem card_group_valid_iff_run_or_set (cards : List Card) :
    card_group_is_valid cards = true ↔ IsRun cards ∨ IsSet cards :=
  card_group_is_valid_iff cards

/-- C2: from any state satisfying the inductive invariant (which pins the
total card count at TOTAL_CARDS), every action offered by the legality
check and executed with legal parameters succeeds and re-establishes the
invariant, so the sum of hand sizes plus deck size stays TOTAL_CARDS; and
`next_turn` raises exactly when that total is off or some hand exceeds
MAX_HAND_SIZE. -/
theorem legal_actions_conserve_cards (g : Game) (inp : ActInput)
    (hInv : Inv g) (hLeg : Legal g inp) :
    (∃ g', doAction g inp = .ok g' ∧ totalCards g' = TOTAL_CARDS ∧ Inv g') ∧
    (∀ g0 : Game, 0 < g0.hands.length →
      (raises (next_turn g0) = true ↔
        (totalCards g0 ≠ TOTAL_CARDS ∨ ∃ h ∈ g0.hands, MAX_HAND_SIZE < h.length))) := by
  refine ⟨?_, fun g0 _ => next_turn_raises_iff g0⟩
  obtain ⟨hposs, hparam⟩ := hLeg
  cases inp with
  | drawMultiple count =>
    have hposs' : action_is_possible g Action.drawMultiple = true := hposs
    have hng : ¬Gate g := possible_not_gate (by decide) (by decide) hposs'
    have hcan := possible_drawMultiple hng hposs'
    obtain ⟨g', hok, hinv'⟩ := drawMultiple_preserves hInv hcan hparam.1 hparam.2
    exact ⟨g', hok, hinv'.total, hinv'⟩
  | steal target =>
    have hposs' : action_is_possible g Action.steal = true := hposs
    have hng : ¬Gate g := possible_not_gate (by decide) (by decide) hposs'
    have hcan := possible_steal hng hposs'
    obtain ⟨g', hok, hinv'⟩ :=
      steal_preserves hInv hcan hparam.1 hparam.2.1 hparam.2.2
    exact ⟨g', hok, hinv'.total, hinv'⟩
  | drawDiscardDraw =>
    have hposs' : action_is_possible g Action.drawDiscardDraw = true := hposs
    have hng : ¬Gate g := possible_not_gate (by decide) (by decide) hposs'
    have hcan := possible_ddd hng hposs'
    obtain ⟨g', hok, hinv'⟩ := ddd_preserves hInv hcan
    exact ⟨g', hok, hinv'.total, hinv'⟩
  | drawDiscardDiscard card =>
    have hgate := possible_dddisc_gate hposs
    obtain ⟨g', hok, hinv'⟩ := dddisc_preserves hInv hgate hparam
    exact ⟨g', hok, hinv'.total, hinv'⟩
  | discardGroup cards =>
    obtain ⟨g', hok, hinv'⟩ := discard_preserves hInv hparam.1 hparam.2
    refine ⟨g', ?_, hinv'.total, hinv'⟩
    show Except.ok (player_discards_group g cards).2 = Except.ok g'
    rw [hok]
  | pass =>
    have hposs' : action_is_possible g Action.nextTurn = true := hposs
    have hng : ¬Gate g := possible_not_gate (by decide) (by decide) hposs'
    obtain ⟨hok, hinv'⟩ := pass_preserves hInv hng
    exact ⟨_, hok, hinv'.total, hinv'⟩

/-- Witness for C2: a fresh two-player game passing the turn. -/
theorem legal_actions_conserve_cards_witness :
    (∃ g', doAction demoGame .pass = .ok g' ∧ totalCards g' = TOTAL_CARDS ∧
      Inv g') ∧
    (∀ g0 : Game, 0 < g0.hands.length →
      (raises (next_turn g0) = true ↔
        (totalCards g0 ≠ TOTAL_CARDS ∨ ∃ h ∈ g0.hands, MAX_HAND_SIZE < h.length))) :=
  legal_actions_conserve_cards demoGame .pass
    ⟨by decide, by decide, by decide, by decide, by decide, by decide, by decide⟩
    ⟨by decide, trivial⟩

/-- C3: whenever the DRAW_DISCARD_DRAW counter is 1 and the
DRAW_DISCARD_DISCARD counter is 0, `get_all_possible_actions` is exactly
the one-element list holding DRAW_DISCARD_DISCARD. -/
theorem pending_discard_gates_actions (g : Game)
    (h1 : g.used .drawDiscardDraw = 1) (h2 : g.used .drawDiscardDiscard = 0) :
    get_all_possible_actions g = [Action.drawDiscardDiscard] := by
  simp [get_all_possible_actions, Action.get_all_actions, action_is_possible,
    h1, h2]

/-- Witness for C3: a game awaiting its pending discard. -/
theorem pending_discard_gates_actions_witness :
    get_all_possible_actions gateDemo = [Action.drawDiscardDiscard] :=
  pending_discard_gates_actions gateDemo (by decide) (by decide)

/-- C4, refuted: there is no hand, with or without a 5-card same-color
run, on which the fast size-3/4 check says no discard is possible while
the exhaustive discovery finds a group, because every valid group of more
than 4 cards contains a valid sub-group of size 3 or 4. -/
theorem fast_slow_disagreement_refuted :
    ¬∃ hand : List Card, (∃ run, run <+~ hand ∧ run.length = 5 ∧ IsRun run) ∧
      can_discard_group hand = false ∧ get_discardable_groups hand ≠ [] := by
  rintro ⟨hand, -, hfast, hslow⟩
  have h := (can_discard_group_agrees hand).mpr hslow
  rw [hfast] at h
  exact Bool.false_ne_true h

/-- C4, amended: the fast check and the exhaustive discovery always agree
(`can_discard_group` is true exactly when `get_discardable_groups` is
nonempty); in particular on a hand that is a 5-card same-color run both
report a discard, since the run contains a 3-card sub-run. -/
theorem fast_slow_checks_agree :
    (∀ hand : List Card,
      can_discard_group hand = true ↔ get_discardable_groups hand ≠ []) ∧
    can_discard_group fiveRun = true ∧ get_discardable_groups fiveRun ≠ [] :=
  ⟨can_discard_group_agrees, by decide, by decide⟩

/-- C5: `player_discards_group` on an invalid group returns false and
leaves the whole state (hands, deck, counters) unchanged, raising nothing;
on a valid group it returns true. -/
theorem invalid_group_discard_soft (g : Game) (cards : List Card) :
    (card_group_is_valid cards = false →
      player_discards_group g cards = (false, g)) ∧
    (player_discards_group g cards).1 = card_group_is_valid cards := by
  constructor
  · intro h
    simp [player_discards_group, h]
  · cases h : card_group_is_valid cards <;> simp [player_discards_group, h]

/-- Witness for C5: discarding the empty (invalid) group changes nothing. -/
theorem invalid_group_discard_soft_witness :
    player_discards_group demoGame [] = (false, demoGame) ∧
    (player_discards_group demoGame []).1 = card_group_is_valid [] :=
  ⟨(invalid_group_discard_soft demoGame []).1 (by decide),
   (invalid_group_discard_soft demoGame []).2⟩

/-- C6: each action executor checks its own precondition first and raises
(returns the error, before any state is touched) whenever that
precondition is false; passing is always allowed. -/
theorem illegal_action_execution_raises (g : Game) :
    (player_can_draw_multiple g = false →
      ∀ count, player_draws_multiple g count = .error "Cannot draw cards") ∧
    (player_can_steal g = false →
      ∀ target, player_steals g target = .error "Cannot steal card") ∧
    (player_can_draw_discard_draw g = false →
      player_draw_discard_draws g =
        .error "Cannot do draw in action draw and discard") ∧
    (player_can_draw_discard_discard g = false →
      ∀ card, player_draw_discard_discards g card =
        .error "Cannot do discard in action draw and discard") ∧
    player_can_pass g = true := by
  refine ⟨?_, ?_, ?_, ?_, rfl⟩
  · intro h count
    simp [player_draws_multiple, h]
  · intro h target
    simp [player_steals, h]
  · intro h
    simp [player_draw_discard_draws, h]
  · intro h card
    simp [player_draw_discard_discards, h]

/-- Witness for C6: in the exhausted state every guarded executor raises. -/
theorem illegal_action_execution_raises_witness :
    player_draws_multiple stuckGame 1 = .error "Cannot draw cards" ∧
    player_steals stuckGame 1 = .error "Cannot steal card" ∧
    player_draw_discard_draws stuckGame =
      .error "Cannot do draw in action draw and discard" ∧
    player_draw_discard_discards stuckGame (Card.mk .red 1) =
      .error "Cannot do discard in action draw and discard" ∧
    player_can_pass stuckGame = true :=
  ⟨(illegal_action_execution_raises stuckGame).1 (by decide) 1,
   (illegal_action_execution_raises stuckGame).2.1 (by decide) 1,
   (illegal_action_execution_raises stuckGame).2.2.1 (by decide),
   (illegal_action_execution_raises stuckGame).2.2.2.1 (by decide) _,
   (illegal_action_execution_raises stuckGame).2.2.2.2⟩

/-- C7: `learn` rewrites the stored value to
`old + alpha * (reward + gamma * next_max - old)`; with learning rate 0.1
and `next_max = 0`, iterating it on one fixed key moves the stored value
monotonically toward the reward without ever overshooting it. -/
theorem td_update_monotone_convergence (ag : Agent) (key : QState × String)
    (r nm : ℝ) (k : Nat) (halpha : ag.alpha = 0.1) :
    (lookupQ (learn ag key r nm).q_table key.1 key.2 =
      lookupQ ag.q_table key.1 key.2 +
        ag.alpha * (r + ag.gamma * nm - lookupQ ag.q_table key.1 key.2)) ∧
    (lookupQ ag.q_table key.1 key.2 ≤ r →
      lookupQ (learnIter ag key r k).q_table key.1 key.2 ≤
        lookupQ (learnIter ag key r (k + 1)).q_table key.1 key.2 ∧
      lookupQ (learnIter ag key r k).q_table key.1 key.2 ≤ r) ∧
    (r ≤ lookupQ ag.q_table key.1 key.2 →
      lookupQ (learnIter ag key r (k + 1)).q_table key.1 key.2 ≤
        lookupQ (learnIter ag key r k).q_table key.1 key.2 ∧
      r ≤ lookupQ (learnIter ag key r k).q_table key.1 key.2) := by
  refine ⟨learn_q ag key r nm, fun h0 => ?_, fun h0 => ?_⟩
  · have hb := learnIter_below ag key r halpha h0 k
    constructor
    · rw [learnIter_step, halpha, mul_zero, add_zero]
      linarith
    · exact hb
  · have hb := learnIter_above ag key r halpha h0 k
    constructor
    · rw [learnIter_step, halpha, mul_zero, add_zero]
      linarith
    · exact hb

/-- Witness for C7 at the demo agent. -/
theorem td_update_monotone_convergence_witness :
    (lookupQ (learn agentDemo ((0, 0, false, 0), "steal") 10 0).q_table
        (0, 0, false, 0) "steal" =
      lookupQ agentDemo.q_table (0, 0, false, 0) "steal" +
        agentDemo.alpha * (10 + agentDemo.gamma * 0 -
          lookupQ agentDemo.q_table (0, 0, false, 0) "steal")) ∧
    (lookupQ agentDemo.q_table (0, 0, false, 0) "steal" ≤ 10 →
      lookupQ (learnIter agentDemo ((0, 0, false, 0), "steal") 10 3).q_table
          (0, 0, false, 0) "steal" ≤
        lookupQ (learnIter agentDemo ((0, 0, false, 0), "steal") 10 4).q_table
          (0, 0, false, 0) "steal" ∧
      lookupQ (learnIter agentDemo ((0, 0, false, 0), "steal") 10 3).q_table
        (0, 0, false, 0) "steal" ≤ 10) ∧
    (10 ≤ lookupQ agentDemo.q_table (0, 0, false, 0) "steal" →
      lookupQ (learnIter agentDemo ((0, 0, false, 0), "steal") 10 4).q_table
          (0, 0, false, 0) "steal" ≤
        lookupQ (learnIter agentDemo ((0, 0, false, 0), "steal") 10 3).q_table
          (0, 0, false, 0) "steal" ∧
      10 ≤ lookupQ (learnIter agentDemo ((0, 0, false, 0), "steal") 10 3).q_table
        (0, 0, false, 0) "steal") :=
  td_update_monotone_convergence agentDemo ((0, 0, false, 0), "steal") 10 0 3 rfl

/-- C8, amended: save-then-load reproduces every lookup exactly (stored
pairs keep their values); pairs never stored read 0; and loading a
nonexistent path returns False without raising and leaves the agent (its
table included) unchanged, so a freshly created agent still has an empty
table. -/
theorem save_load_roundtrip (ag : Agent) (s : QState) (a : String) :
    ((load ag (some (save ag))).1 = true ∧
      lookupQ (load ag (some (save ag))).2.q_table s a =
        lookupQ ag.q_table s a) ∧
    (¬storedPair ag.q_table s a → lookupQ ag.q_table s a = 0) ∧
    load ag none = (false, ag) := by
  refine ⟨⟨rfl, rfl⟩, ?_, rfl⟩
  intro hns
  cases hs : ag.q_table.lookup s with
  | none => simp [lookupQ, hs]
  | some row =>
    cases ha : row.lookup a with
    | none => simp [lookupQ, hs, ha]
    | some v =>
      exact absurd ⟨row, hs, by rw [ha]; rfl⟩ hns

/-- Witness for C8 at the demo agent. -/
theorem save_load_roundtrip_witness :
    ((load agentDemo (some (save agentDemo))).1 = true ∧
      lookupQ (load agentDemo (some (save agentDemo))).2.q_table
          (1, 1, true, 1) "pass" =
        lookupQ agentDemo.q_table (1, 1, true, 1) "pass") ∧
    (¬storedPair agentDemo.q_table (1, 1, true, 1) "pass" →
      lookupQ agentDemo.q_table (1, 1, true, 1) "pass" = 0) ∧
    load agentDemo none = (false, agentDemo) :=
  save_load_roundtrip agentDemo (1, 1, true, 1) "pass"

/-- C8, counterexample to the claim as stated: loading a nonexistent path
on a populated agent returns False but does not leave the agent with an
empty table; the existing table survives untouched. -/
theorem load_missing_keeps_table :
    (load agentDemo none).1 = false ∧ (load agentDemo none).2.q_table ≠ [] := by
  constructor
  · rfl
  · show agentDemo.q_table ≠ []
    simp [agentDemo]

/-- C9: `choose_draw_count` is the heuristic value clamped to
`min(value, MAX_HAND_SIZE - hand_size, deck_size, 3)` with floor 1; under
the draw-multiple precondition (hand not full, deck nonempty) the result
lies between 1 and `min(3, MAX_HAND_SIZE - hand_size, deck_size)`
inclusive. -/
theorem choose_draw_count_bounds (g : Game) :
    (choose_draw_count g =
      max (min (min (draw_count_heuristic g)
        (min ((MAX_HAND_SIZE : Int) - (currentHand g).length)
          g.deck.length)) 3) 1) ∧
    ((currentHand g).length < MAX_HAND_SIZE → g.deck ≠ [] →
      1 ≤ choose_draw_count g ∧
      choose_draw_count g ≤
        min 3 (min ((MAX_HAND_SIZE : Int) - (currentHand g).length)
          g.deck.length)) := by
  refine ⟨rfl, fun hfull hne => ?_⟩
  have hd : 0 < g.deck.length := List.length_pos.mpr hne
  unfold choose_draw_count
  omega

/-- Witness for C9 at the fresh game. -/
theorem choose_draw_count_bounds_witness :
    1 ≤ choose_draw_count demoGame ∧
    choose_draw_count demoGame ≤
      min 3 (min ((MAX_HAND_SIZE : Int) - (currentHand demoGame).length)
        demoGame.deck.length) :=
  (choose_draw_count_bounds demoGame).2 (by decide) (by decide)

/-- C10: the verdict of `card_group_is_valid` depends only on the multiset
of cards: any permutation of the input yields the same result. -/
theorem validator_permutation_invariant (l l' : List Card) (h : l ~ l') :
    card_group_is_valid l = card_group_is_valid l' :=
  card_group_is_valid_perm h

/-- Witness for C10 on a two-card swap. -/
theorem validator_permutation_invariant_witness :
    card_group_is_valid [Card.mk .red 1, Card.mk .blue 2] =
      card_group_is_valid [Card.mk .blue 2, Card.mk .red 1] :=
  validator_permutation_invariant _ _ (by decide)

end Notty
